import Mathlib

/-!
Verification development for the node-stm repository (src/src/index.ts).

The repository implements a software transactional memory on top of SQLite:
a table `tvars (id TEXT PRIMARY KEY, value JSON, version INTEGER)`, a
`Transaction` class whose `execute` wraps the user closure in a
`BEGIN IMMEDIATE TRANSACTION` / `COMMIT` / `ROLLBACK` bracket, read and
write operations (`readTVar`, `writeTVar`, `readTVarPath`, `updateTVarPath`)
that act directly on the table through prepared statements, and a retry
driver `SqliteSTM.atomically` that re-runs the closure when the thrown
error message is exactly the string used for optimistic-concurrency
conflicts.

The embedding below models:
  - JSON documents as an inductive type (serialization to and from the
    JSON text column is modelled as the identity on structured values;
    per the spec, value serialization is out of scope),
  - the tvars table as an association list from id to (value, version),
  - the SQLite JSON path functions `json_extract` and `json_set` on the
    path fragment the code emits (dotted keys and bracketed indices),
    with the semantics of the bundled SQLite: `json_extract` returns SQL
    NULL both for a missing element and for a JSON null at the path;
    `json_set` creates a missing object key (recursively building objects
    for key segments and one-element arrays for a trailing `[0]`), appends
    when an index equals the array length, and is a no-op when a missing
    or out-of-range index segment is traversed,
  - the path formatting regexes of `Transaction.formatSqlitePath`,
  - errors as a structured type carrying exactly the message strings the
    code throws; the retry driver compares messages, as the code does,
  - the user closure as a straight-line list of operations optionally
    followed by a user throw, and the retry driver alternatively over an
    abstract per-attempt outcome function.
-/

namespace NodeSTM

/-- JSON documents: the value space of a TVar. Numbers are modelled as
integers; no claim depends on non-integer numerics. -/
inductive Json where
  | null : Json
  | bool (b : Bool) : Json
  | num (n : Int) : Json
  | str (s : String) : Json
  | arr (xs : List Json) : Json
  | obj (fields : List (String × Json)) : Json

/-- Is this document the JSON null? -/
def Json.isNull : Json → Bool
  | Json.null => true
  | _ => false

/-- One segment of a SQLite JSON path: an object key or an array index. -/
inductive Seg where
  | key (k : String) : Seg
  | idx (n : Nat) : Seg
deriving DecidableEq

/-- The exact message of the error thrown by `writeTVar` and
`updateTVarPath` on a failed compare-and-swap, and the string
`SqliteSTM.atomically` compares caught error messages against. -/
def conflictMsg : String := "Concurrent modification detected"

/-- Errors surfaced by the engine.  The code throws plain `Error` objects;
each constructor records which throw site produced it, and
`STMErr.message` renders the exact message string the code uses, since the
retry driver dispatches on the message alone. -/
inductive STMErr where
  | notFound (id : String) : STMErr
  | alreadyExists (id : String) : STMErr
  | pathAbsent (path : List Char) (id : String) : STMErr
  | conflict : STMErr
  | maxRetries : STMErr
  | badPath : STMErr
  | busy : STMErr
  | user (msg : String) : STMErr
deriving DecidableEq

/-- The message carried by each error, exactly as the code renders it.
`busy` stands for the backend error thrown when `BEGIN IMMEDIATE` cannot
acquire the write lock; `badPath` for a backend JSON path parse error. -/
def STMErr.message : STMErr → String
  | STMErr.notFound id => "TVar " ++ id ++ " does not exist"
  | STMErr.alreadyExists id => "TVar " ++ id ++ " already exists"
  | STMErr.pathAbsent path id =>
      "Path " ++ path.asString ++ " does not exist in TVar " ++ id
  | STMErr.conflict => conflictMsg
  | STMErr.maxRetries => "Transaction failed: max retry attempts exceeded"
  | STMErr.badPath => "malformed JSON path"
  | STMErr.busy => "database is locked"
  | STMErr.user msg => msg

/-- A row of the `tvars` table: `value JSON NOT NULL,
version INTEGER NOT NULL DEFAULT 0`. -/
structure TVarRec where
  value : Json
  version : Nat

/-- The `tvars` table: an association list from id to record (ids are the
primary key, hence unique in any store built through the API). -/
abbrev Store := List (String × TVarRec)

/-- `SELECT ... FROM tvars WHERE id = ?`: first row whose id matches. -/
def lookupTVar : Store → String → Option TVarRec
  | [], _ => none
  | (i, r) :: rest, id => if i = id then some r else lookupTVar rest id

/-- Replace the record stored under `id` (the row update part of an SQL
`UPDATE ... WHERE id = ?`). -/
def storeSet : Store → String → TVarRec → Store
  | [], _, _ => []
  | (i, r) :: rest, id, nr =>
      if i = id then (i, nr) :: rest else (i, r) :: storeSet rest id nr

/-- `UPDATE tvars SET value = ?, version = version + 1
WHERE id = ? AND version = ?` — returns the updated store and the number
of changed rows (the code checks `result.changes === 0`). -/
def casUpdate (s : Store) (id : String) (newVal : Json) (expected : Nat) :
    Store × Nat :=
  match lookupTVar s id with
  | some r =>
      if r.version = expected then
        (storeSet s id ⟨newVal, r.version + 1⟩, 1)
      else (s, 0)
  | none => (s, 0)

/-! ## SQLite JSON path evaluation -/

/-- Lookup of a key in a JSON object (first matching field). -/
def assocFind : List (String × Json) → String → Option Json
  | [], _ => none
  | (k, v) :: rest, key => if k = key then some v else assocFind rest key

/-- Replace the value stored under an existing key of a JSON object. -/
def assocSet : List (String × Json) → String → Json → List (String × Json)
  | [], _, _ => []
  | (k, v) :: rest, key, nv =>
      if k = key then (k, nv) :: rest else (k, v) :: assocSet rest key nv

/-- `json_extract` projection: `none` when the path traverses a missing
key or index.  (The SQL-level collapse of a JSON null to SQL NULL is done
separately by `sqlExtract`.) -/
def jsonExtract : Json → List Seg → Option Json
  | doc, [] => some doc
  | doc, Seg.key k :: rest =>
      match doc with
      | Json.obj fields =>
          match assocFind fields k with
          | some sub => jsonExtract sub rest
          | none => none
      | _ => none
  | doc, Seg.idx n :: rest =>
      match doc with
      | Json.arr xs =>
          match xs.get? n with
          | some sub => jsonExtract sub rest
          | none => none
      | _ => none

/-- What `SELECT json_extract(value, ?)` yields: SQL NULL (`none`) both
when the path selects nothing and when it selects a JSON null. -/
def sqlExtract (doc : Json) (segs : List Seg) : Option Json :=
  match jsonExtract doc segs with
  | some Json.null => none
  | o => o

/-- The structure `json_set` builds under a freshly created object key:
key segments create one-field objects; an index segment creates a
one-element array, but only for index 0 (the only index equal to the
length of a new empty array); any other index makes the whole edit a
no-op. -/
def jsonCreate (v : Json) : List Seg → Option Json
  | [] => some v
  | Seg.key k :: rest =>
      (jsonCreate v rest).map (fun sub => Json.obj [(k, sub)])
  | Seg.idx n :: rest =>
      if n = 0 then (jsonCreate v rest).map (fun sub => Json.arr [sub])
      else none

/-- `json_set(doc, path, v)` of the bundled SQLite: descend through
existing keys and in-range indices; a missing object key is created (and
the remaining path built by `jsonCreate`); an index equal to the array
length appends; everything else makes the edit a no-op (`none`; the
caller keeps the document unchanged). -/
def jsonSetWalk (v : Json) : Json → List Seg → Option Json
  | _, [] => some v
  | doc, Seg.key k :: rest =>
      match doc with
      | Json.obj fields =>
          match assocFind fields k with
          | some sub =>
              (jsonSetWalk v sub rest).map
                (fun sub' => Json.obj (assocSet fields k sub'))
          | none =>
              (jsonCreate v rest).map
                (fun sub' => Json.obj (fields ++ [(k, sub')]))
      | _ => none
  | doc, Seg.idx n :: rest =>
      match doc with
      | Json.arr xs =>
          match xs.get? n with
          | some sub =>
              (jsonSetWalk v sub rest).map (fun sub' => Json.arr (xs.set n sub'))
          | none =>
              if n = xs.length then
                (jsonCreate v rest).map (fun sub' => Json.arr (xs ++ [sub']))
              else none
      | _ => none

/-! ## Path formatting (`Transaction.formatSqlitePath`)

The code applies two global regex replacements:
`sqlitePath.replace(/\.(\d+)(?=\.|$)/g, "[$1]")` rewrites a dot followed
by a maximal digit run that is itself followed by a dot or the end of the
string into a bracketed index, and
`sqlitePath.replace(/\[(\d+)\]/g, "[$1]")` replaces a bracketed digit run
by itself.  Left-to-right non-overlapping regex scanning with the
lookahead not consumed is equivalent to splitting the string on the
trigger character and transforming each later piece, which is how the two
replacements are modelled below. -/

/-- Split a character list at every occurrence of `ch` (the separators are
dropped; `n` separators yield `n + 1` pieces). -/
def splitOnChar (ch : Char) : List Char → List (List Char)
  | [] => [[]]
  | c :: rest =>
      if c = ch then [] :: splitOnChar ch rest
      else
        match splitOnChar ch rest with
        | s :: ss => (c :: s) :: ss
        | [] => [[c]]

/-- Rebuild the original list from `splitOnChar ch` pieces. -/
def joinChar (ch : Char) : List (List Char) → List Char
  | [] => []
  | s :: ss => s ++ (ss.map (fun t => ch :: t)).flatten

/-- Is this piece a nonempty run of digits?  Exactly the `(\d+)` capture
of the first regex with its dot-or-end lookahead satisfied. -/
def isDigitSeg (s : List Char) : Bool := !s.isEmpty && s.all Char.isDigit

/-- The action of `/\.(\d+)(?=\.|$)/ → "[$1]"` on one dot-separated
piece: an all-digit piece is bracketed, any other piece keeps its dot. -/
def segOutDot (s : List Char) : List Char :=
  if isDigitSeg s then '[' :: (s ++ [']']) else '.' :: s

/-- First replacement: `.digits` (followed by a dot or the end) becomes
`[digits]`. -/
def rewriteDots (l : List Char) : List Char :=
  match splitOnChar '.' l with
  | [] => l
  | s :: ss => s ++ (ss.map segOutDot).flatten

/-- The action of `/\[(\d+)\]/ → "[$1]"` on one piece following a `[`:
a digit run followed by `]` is replaced by itself. -/
def segOutBracket (s : List Char) : List Char :=
  let ds := s.takeWhile Char.isDigit
  let rs := s.dropWhile Char.isDigit
  if !ds.isEmpty && rs.head? == some ']' then '[' :: (ds ++ rs)
  else '[' :: s

/-- Second replacement: `[digits]` becomes `[digits]` (an identity,
proved below as `rewriteBrackets_id`). -/
def rewriteBrackets (l : List Char) : List Char :=
  match splitOnChar '[' l with
  | [] => l
  | s :: ss => s ++ (ss.map segOutBracket).flatten

/-- `Transaction.formatSqlitePath`: `"$"` for the empty path or `"$"`;
`"$" + path` verbatim for a path that starts with `[` and ends with `]`;
otherwise prepend `"$."` unless the path already starts with `$`, then
apply the two regex replacements. -/
def formatSqlitePath (path : List Char) : List Char :=
  if path == ['$'] || path == [] then ['$']
  else if (path.head? == some '[') && (path.getLast? == some ']') then
    '$' :: path
  else
    let sqlitePath := if path.head? == some '$' then path
                      else '$' :: '.' :: path
    rewriteBrackets (rewriteDots sqlitePath)

/-! ## SQLite JSON path parsing

The formatted path is handed to the backend, which parses `$` followed by
`.key` and `[n]` segments (the fragment of the SQLite path grammar this
code emits).  The parser is written with explicit fuel so that it is
structurally recursive; one unit of fuel is spent per character, so
`length + 1` fuel always suffices. -/

/-- Digit run to number, most significant first. -/
def digitsToNat (ds : List Char) : Nat :=
  ds.foldl (fun n c => 10 * n + (c.toNat - '0'.toNat)) 0

/-- Parse the segments after `$`.  `keyMode = true` consumes the
characters of an object key (after a dot), `keyMode = false` the digits of
a bracketed index; `acc` is the piece read so far. -/
def parseLoop : Nat → Bool → List Char → List Char → Option (List Seg)
  | 0, _, _, _ => none
  | _ + 1, true, acc, [] =>
      if acc.isEmpty then none else some [Seg.key (String.mk acc)]
  | fuel + 1, true, acc, c :: rest =>
      if c = '.' then
        if acc.isEmpty then none
        else (parseLoop fuel true [] rest).map
          (fun segs => Seg.key (String.mk acc) :: segs)
      else if c = '[' then
        if acc.isEmpty then none
        else (parseLoop fuel false [] rest).map
          (fun segs => Seg.key (String.mk acc) :: segs)
      else parseLoop fuel true (acc ++ [c]) rest
  | _ + 1, false, _, [] => none
  | fuel + 1, false, acc, c :: rest =>
      if c.isDigit then parseLoop fuel false (acc ++ [c]) rest
      else if c = ']' && !acc.isEmpty then
        match rest with
        | [] => some [Seg.idx (digitsToNat acc)]
        | '.' :: r2 => (parseLoop fuel true [] r2).map
            (fun segs => Seg.idx (digitsToNat acc) :: segs)
        | '[' :: r2 => (parseLoop fuel false [] r2).map
            (fun segs => Seg.idx (digitsToNat acc) :: segs)
        | _ => none
      else none

/-- Parse a complete SQLite JSON path: `$`, optionally followed by
segments.  `none` models the backend raising a JSON path error. -/
def parsePath : List Char → Option (List Seg)
  | [] => none
  | c :: rest =>
      if c = '$' then
        match rest with
        | [] => some []
        | '.' :: r2 => parseLoop (r2.length + 1) true [] r2
        | '[' :: r2 => parseLoop (r2.length + 1) false [] r2
        | _ => none
      else none

/-! ## Transaction operations (class `Transaction`)

Each operation runs directly against the table inside the open backend
transaction, exactly as the prepared statements do. -/

/-- `Transaction.readTVar`: `SELECT value, version WHERE id = ?`; throws
`TVar ${id} does not exist` when no row matches, otherwise returns the
parsed value. -/
def readTVar (s : Store) (id : String) : Except STMErr Json :=
  match lookupTVar s id with
  | none => Except.error (STMErr.notFound id)
  | some r => Except.ok r.value

/-- `Transaction.writeTVar`: read the current version, then CAS-update
value and version; throws the conflict error when zero rows changed. -/
def writeTVar (s : Store) (id : String) (v : Json) : Except STMErr Store :=
  match lookupTVar s id with
  | none => Except.error (STMErr.notFound id)
  | some r =>
      let res := casUpdate s id v r.version
      if res.2 = 0 then Except.error STMErr.conflict else Except.ok res.1

/-- `Transaction.readTVarPath`: format the path, run
`SELECT json_extract(value, ?) WHERE id = ?`; no row means the TVar is
missing; an SQL NULL result (missing element or JSON null) raises the
path error; otherwise the projected sub-value is returned. -/
def readTVarPath (s : Store) (id : String) (path : List Char) :
    Except STMErr Json :=
  match parsePath (formatSqlitePath path) with
  | none => Except.error STMErr.badPath
  | some segs =>
      match lookupTVar s id with
      | none => Except.error (STMErr.notFound id)
      | some r =>
          match sqlExtract r.value segs with
          | none => Except.error (STMErr.pathAbsent path id)
          | some v => Except.ok v

/-- `Transaction.updateTVarPath`: format the path, read the current
version, then `UPDATE ... SET value = json_set(value, ?, ?),
version = version + 1 WHERE id = ? AND version = ?`; throws the conflict
error when zero rows changed.  Note that the row is updated (and the
version bumped) even when `json_set` leaves the value unchanged. -/
def updateTVarPath (s : Store) (id : String) (path : List Char) (v : Json) :
    Except STMErr Store :=
  match parsePath (formatSqlitePath path) with
  | none => Except.error STMErr.badPath
  | some segs =>
      match lookupTVar s id with
      | none => Except.error (STMErr.notFound id)
      | some r =>
          let newVal := (jsonSetWalk v r.value segs).getD r.value
          let res := casUpdate s id newVal r.version
          if res.2 = 0 then Except.error STMErr.conflict else Except.ok res.1

/-- `SqliteSTM.newTVar`: check for an existing row, throw
`TVar ${id} already exists` if present, otherwise
`INSERT INTO tvars (id, value, version) VALUES (?, ?, 0)`. -/
def newTVar (s : Store) (id : String) (v : Json) : Except STMErr Store :=
  match lookupTVar s id with
  | some _ => Except.error (STMErr.alreadyExists id)
  | none => Except.ok (s ++ [(id, ⟨v, 0⟩)])

/-! ## The user closure and `Transaction.execute`

A user closure is modelled as a straight-line list of transaction
operations, optionally followed by a user throw (`some msg`).  The
closure runs inside the `BEGIN IMMEDIATE` / `COMMIT` / `ROLLBACK` bracket
of `Transaction.execute`; `ROLLBACK` restores the store to its state at
`BEGIN`. -/

/-- One call the user closure can make on the transaction object. -/
inductive Op where
  | opRead (id : String) : Op
  | opWrite (id : String) (v : Json) : Op
  | opReadPath (id : String) (path : List Char) : Op
  | opUpdatePath (id : String) (path : List Char) (v : Json) : Op

/-- Does this operation write (CAS-update) the given id? -/
def writesTo (id : String) : Op → Bool
  | Op.opWrite i _ => i == id
  | Op.opUpdatePath i _ _ => i == id
  | _ => false

/-- How many operations of the closure write the given id. -/
def writeCount (ops : List Op) (id : String) : Nat :=
  ops.countP (writesTo id)

/-- Run one operation against the current table state. -/
def runOp (s : Store) : Op → Except STMErr Store
  | Op.opRead id => (readTVar s id).map (fun _ => s)
  | Op.opWrite id v => writeTVar s id v
  | Op.opReadPath id p => (readTVarPath s id p).map (fun _ => s)
  | Op.opUpdatePath id p v => updateTVarPath s id p v

/-- Run the operations of the closure in order; the first throw aborts. -/
def runOps (s : Store) : List Op → Except STMErr Store
  | [] => Except.ok s
  | o :: rest =>
      match runOp s o with
      | Except.error e => Except.error e
      | Except.ok s' => runOps s' rest

/-- `Transaction.execute`: begin, run the closure, commit on normal
return; on any throw (an operation error or the final user throw) roll
back and propagate.  The result is the committed store on success; on
error the caller observes the store unchanged (rollback). -/
def execute (s : Store) (ops : List Op) (fin : Option String) :
    Except STMErr Store :=
  match runOps s ops with
  | Except.error e => Except.error e
  | Except.ok s' =>
      match fin with
      | some msg => Except.error (STMErr.user msg)
      | none => Except.ok s'

/-- The store visible after one `execute` attempt: the committed store on
success, the original store after a rollback. -/
def executeState (s : Store) (ops : List Op) (fin : Option String) : Store :=
  match execute s ops fin with
  | Except.ok s' => s'
  | Except.error _ => s

/-! ### Event trace of `execute`

To reason about when the exclusive backend transaction (the write lock)
is held, `execute` is replayed as a list of events: the
`BEGIN IMMEDIATE TRANSACTION`, each user operation actually invoked, and
the final `COMMIT` or `ROLLBACK`. -/

/-- An observable event of one `execute` call. -/
inductive Ev where
  | evBegin : Ev
  | evOp (o : Op) : Ev
  | evCommit : Ev
  | evRollback : Ev

/-- Is this event the `COMMIT`? -/
def Ev.isCommit : Ev → Bool
  | Ev.evCommit => true
  | _ => false

/-- The user operations invoked, in order (a failing operation is still
invoked, and nothing after it runs). -/
def runTraceOps (s : Store) : List Op → List Ev
  | [] => []
  | o :: rest =>
      match runOp s o with
      | Except.error _ => [Ev.evOp o]
      | Except.ok s' => Ev.evOp o :: runTraceOps s' rest

/-- The event trace of `Transaction.execute`: `BEGIN IMMEDIATE` first,
then the user operations, then `COMMIT` on normal return of the closure
or `ROLLBACK` on a throw. -/
def executeTrace (s : Store) (ops : List Op) (fin : Option String) :
    List Ev :=
  Ev.evBegin ::
    (runTraceOps s ops ++
      [match execute s ops fin with
       | Except.ok _ => Ev.evCommit
       | Except.error _ => Ev.evRollback])

/-! ## The retry driver (`SqliteSTM.atomically`)

The driver runs `tx.execute(() => fn(tx))` in a loop; when the caught
error message is exactly `conflictMsg` it increments `attempts`, fails
with the max-retries error once `attempts` reaches 1000, sleeps
`min(100, 2^(attempts/10))` milliseconds on every 10th retry, and
otherwise retries immediately; any other error propagates.

The driver treats each attempt as a black box, so it is modelled over an
abstract per-attempt outcome: `outcome k` is what the attempt made with
the counter at `k` returns or throws.  The loop is written with fuel
`1000 - attempts` to make the recursion structural; the fuel-exhausted
branch is unreachable whenever `fuel + attempts = 1000`, because the
driver stops at `attempts = 1000` first. -/

/-- What one attempt (one `tx.execute(fn)` call) does: return a value or
throw an error. -/
inductive AttemptResult where
  | ok (v : Json) : AttemptResult
  | thrown (e : STMErr) : AttemptResult

/-- The retry loop.  Returns the overall result together with the list of
back-off sleeps performed, in order (in milliseconds). -/
def atomicallyGo (outcome : Nat → AttemptResult) :
    Nat → Nat → Except STMErr Json × List Nat
  | 0, _ => (Except.error STMErr.maxRetries, [])
  | fuel + 1, attempts =>
      match outcome attempts with
      | AttemptResult.ok v => (Except.ok v, [])
      | AttemptResult.thrown e =>
          if e.message == conflictMsg then
            let a := attempts + 1
            if 1000 ≤ a then (Except.error STMErr.maxRetries, [])
            else
              let rest := atomicallyGo outcome fuel a
              if a % 10 == 0 then
                (rest.1, min 100 (2 ^ (a / 10)) :: rest.2)
              else rest
          else (Except.error e, [])

/-- `SqliteSTM.atomically` over an abstract outcome per attempt:
`attempts = 0`, `maxAttempts = 1000`. -/
def atomicallyOutcomes (outcome : Nat → AttemptResult) :
    Except STMErr Json × List Nat :=
  atomicallyGo outcome 1000 0

/-- The outcome of one deterministic attempt of the modelled closure:
`execute` either commits (the closure return value is irrelevant to the
claims and abstracted as null) or throws. -/
def txOutcome (s : Store) (ops : List Op) (fin : Option String) :
    AttemptResult :=
  match execute s ops fin with
  | Except.ok _ => AttemptResult.ok Json.null
  | Except.error e => AttemptResult.thrown e

/-- `SqliteSTM.atomically` applied to the modelled closure: every attempt
re-runs the same straight-line closure against the same (rolled-back)
store, so every attempt has the same outcome. -/
def atomicallyRun (s : Store) (ops : List Op) (fin : Option String) :
    Except STMErr Json :=
  (atomicallyOutcomes (fun _ => txOutcome s ops fin)).1

/-- The store visible after `atomically` returns: retries roll back, so
only a committing attempt changes it. -/
def atomicallyState (s : Store) (ops : List Op) (fin : Option String) :
    Store :=
  executeState s ops fin

/-! ## Store-level API steps (for version monotonicity)

A client interacts with the store through `newTVar` and `atomically`;
each call maps the committed store to the next committed store. -/

/-- One API call against the store. -/
inductive ApiCall where
  | callNew (id : String) (v : Json) : ApiCall
  | callAtomically (ops : List Op) (fin : Option String) : ApiCall

/-- The committed store after one API call (a failed call leaves the
store unchanged: `newTVar` throws before inserting, a failed or
user-aborted transaction rolls back). -/
def apiStep (s : Store) : ApiCall → Store
  | ApiCall.callNew id v =>
      match newTVar s id v with
      | Except.ok s' => s'
      | Except.error _ => s
  | ApiCall.callAtomically ops fin => atomicallyState s ops fin

/-! ## Statement helpers

Definitions used only to state properties (they follow the wording of the
spec sentences being checked, not the source). -/

/-- The document consisting of nested one-field objects along the given
keys with `v` at the end: what creating an empty object at every missing
key segment and assigning at the terminal yields, starting from `{}`. -/
def nestObj : List String → Json → Json
  | [], v => v
  | k :: ks, v => Json.obj [(k, nestObj ks v)]

/-- The back-off sleeps the spec prescribes for `n` consecutive retries
whose attempt counter runs through `start+1, ..., start+n`: on every 10th
retry (counter divisible by 10) one sleep of
`min 100 (2 ^ (counter / 10))` milliseconds, and no sleep otherwise. -/
def backoffSchedule : Nat → Nat → List Nat
  | _, 0 => []
  | start, n + 1 =>
      (if (start + 1) % 10 == 0 then [min 100 (2 ^ ((start + 1) / 10))]
       else []) ++ backoffSchedule (start + 1) n

/-! ## Basic store lemmas -/

theorem lookupTVar_storeSet_self {s : Store} {id : String} {r nr : TVarRec}
    (h : lookupTVar s id = some r) :
    lookupTVar (storeSet s id nr) id = some nr := by
  induction s with
  | nil => simp [lookupTVar] at h
  | cons hd tl ih =>
      obtain ⟨i, rec⟩ := hd
      by_cases hi : i = id
      · subst hi; simp [lookupTVar, storeSet]
      · simp [lookupTVar, storeSet, hi] at h ⊢
        exact ih h

theorem lookupTVar_storeSet_ne {s : Store} {id i : String} {nr : TVarRec}
    (h : i ≠ id) :
    lookupTVar (storeSet s id nr) i = lookupTVar s i := by
  induction s with
  | nil => simp [storeSet]
  | cons hd tl ih =>
      obtain ⟨j, rec⟩ := hd
      by_cases hj : j = id
      · subst hj
        have hji : j ≠ i := fun hji => h hji.symm
        simp [storeSet, lookupTVar, hji]
      · simp only [storeSet, lookupTVar, if_neg hj]
        by_cases hji : j = i
        · simp [hji, lookupTVar]
        · simp [hji, ih, lookupTVar]

theorem lookupTVar_append_some {s : Store} {l : Store} {id : String}
    {r : TVarRec} (h : lookupTVar s id = some r) :
    lookupTVar (s ++ l) id = some r := by
  induction s with
  | nil => simp [lookupTVar] at h
  | cons hd tl ih =>
      obtain ⟨i, rec⟩ := hd
      by_cases hi : i = id
      · subst hi; simp [lookupTVar] at h ⊢; exact h
      · simp [lookupTVar, hi] at h ⊢; exact ih h

theorem lookupTVar_append_none {s : Store} {l : Store} {id : String}
    (h : lookupTVar s id = none) :
    lookupTVar (s ++ l) id = lookupTVar l id := by
  induction s with
  | nil => simp
  | cons hd tl ih =>
      obtain ⟨i, rec⟩ := hd
      by_cases hi : i = id
      · simp [lookupTVar, hi] at h
      · simp [lookupTVar, hi] at h ⊢; exact ih h

/-! ## JSON object field lemmas -/

theorem assocFind_assocSet_self {fields : List (String × Json)} {k : String}
    {sub x : Json} (h : assocFind fields k = some sub) :
    assocFind (assocSet fields k x) k = some x := by
  induction fields with
  | nil => simp [assocFind] at h
  | cons hd tl ih =>
      obtain ⟨k', v'⟩ := hd
      by_cases hk : k' = k
      · subst hk; simp [assocFind, assocSet]
      · simp [assocFind, assocSet, hk] at h ⊢
        exact ih h

theorem assocFind_append_none {fields l : List (String × Json)} {k : String}
    (h : assocFind fields k = none) :
    assocFind (fields ++ l) k = assocFind l k := by
  induction fields with
  | nil => simp
  | cons hd tl ih =>
      obtain ⟨k', v'⟩ := hd
      by_cases hk : k' = k
      · simp [assocFind, hk] at h
      · simp [assocFind, hk] at h ⊢; exact ih h

/-! ## `json_set` and `json_extract` interaction -/

theorem jsonCreate_extract {v : Json} :
    ∀ {segs : List Seg} {doc : Json},
      jsonCreate v segs = some doc → jsonExtract doc segs = some v := by
  intro segs
  induction segs with
  | nil =>
      intro doc h
      simp [jsonCreate] at h
      subst h
      simp [jsonExtract]
  | cons sg rest ih =>
      intro doc h
      cases sg with
      | key k =>
          simp [jsonCreate, Option.map_eq_some'] at h
          obtain ⟨sub, hsub, hdoc⟩ := h
          subst hdoc
          simpa [jsonExtract, assocFind] using ih hsub
      | idx n =>
          simp [jsonCreate, Option.map_eq_some'] at h
          rcases h with ⟨hn, sub, hsub, hdoc⟩
          subst hn
          subst hdoc
          simpa [jsonExtract] using ih hsub

theorem jsonSetWalk_extract {v : Json} :
    ∀ {segs : List Seg} {doc doc' : Json},
      jsonSetWalk v doc segs = some doc' → jsonExtract doc' segs = some v := by
  intro segs
  induction segs with
  | nil =>
      intro doc doc' h
      simp [jsonSetWalk] at h
      subst h
      simp [jsonExtract]
  | cons sg rest ih =>
      intro doc doc' h
      cases sg with
      | key k =>
          cases doc with
          | obj fields =>
              rw [jsonSetWalk] at h
              cases hf : assocFind fields k with
              | none =>
                  rw [hf] at h
                  simp only [Option.map_eq_some'] at h
                  obtain ⟨sub, hsub, hdoc⟩ := h
                  subst hdoc
                  rw [jsonExtract, assocFind_append_none hf]
                  simpa [assocFind] using jsonCreate_extract hsub
              | some sub =>
                  rw [hf] at h
                  simp only [Option.map_eq_some'] at h
                  obtain ⟨sub', hsub, hdoc⟩ := h
                  subst hdoc
                  rw [jsonExtract, assocFind_assocSet_self hf]
                  exact ih hsub
          | null => simp [jsonSetWalk] at h
          | bool b => simp [jsonSetWalk] at h
          | num n => simp [jsonSetWalk] at h
          | str s => simp [jsonSetWalk] at h
          | arr xs => simp [jsonSetWalk] at h
      | idx n =>
          cases doc with
          | arr xs =>
              rw [jsonSetWalk] at h
              cases hx : xs.get? n with
              | none =>
                  rw [hx] at h
                  by_cases hn : n = xs.length
                  · rw [if_pos hn] at h
                    simp only [Option.map_eq_some'] at h
                    obtain ⟨sub, hsub, hdoc⟩ := h
                    subst hdoc
                    subst hn
                    rw [jsonExtract, List.get?_concat_length]
                    exact jsonCreate_extract hsub
                  · rw [if_neg hn] at h
                    exact absurd h (by simp)
              | some sub =>
                  rw [hx] at h
                  simp only [Option.map_eq_some'] at h
                  obtain ⟨sub', hsub, hdoc⟩ := h
                  subst hdoc
                  have hset : (xs.set n sub').get? n = some sub' := by
                    rw [List.get?_set_eq, hx]
                    rfl
                  rw [jsonExtract, hset]
                  exact ih hsub
          | null => simp [jsonSetWalk] at h
          | bool b => simp [jsonSetWalk] at h
          | num m => simp [jsonSetWalk] at h
          | str s => simp [jsonSetWalk] at h
          | obj fields => simp [jsonSetWalk] at h

/-- SQL projection of a value that is present and not JSON null. -/
theorem sqlExtract_some_of {doc : Json} {segs : List Seg} {v : Json}
    (he : jsonExtract doc segs = some v) (hv : v.isNull = false) :
    sqlExtract doc segs = some v := by
  cases v <;> simp_all [sqlExtract, Json.isNull]

/-- SQL projection is NULL exactly for a missing element or a JSON null. -/
theorem sqlExtract_none_iff {doc : Json} {segs : List Seg} :
    sqlExtract doc segs = none ↔
      (jsonExtract doc segs = none ∨ jsonExtract doc segs = some Json.null) := by
  cases he : jsonExtract doc segs with
  | none => simp [sqlExtract, he]
  | some v => cases v <;> simp [sqlExtract, he]

/-! ## Write operation lemmas -/

/-- Inside the exclusive transaction the CAS of `writeTVar` always
matches the version it just read, so a write to an existing id stores the
new value and bumps the version by one. -/
theorem writeTVar_ok {s : Store} {id : String} {v : Json} {r : TVarRec}
    (hl : lookupTVar s id = some r) :
    writeTVar s id v = Except.ok (storeSet s id ⟨v, r.version + 1⟩) := by
  rw [writeTVar, hl]
  simp [casUpdate, hl]

/-- Same for `updateTVarPath` when `json_set` edits the document. -/
theorem updateTVarPath_ok {s : Store} {id : String} {p : List Char}
    {v : Json} {segs : List Seg} {r : TVarRec} {doc' : Json}
    (hp : parsePath (formatSqlitePath p) = some segs)
    (hl : lookupTVar s id = some r)
    (hset : jsonSetWalk v r.value segs = some doc') :
    updateTVarPath s id p v = Except.ok (storeSet s id ⟨doc', r.version + 1⟩) := by
  rw [updateTVarPath, hp, hl]
  simp [hset, casUpdate, hl]

/-- `updateTVarPath` when `json_set` is a no-op: the value is kept but the
row is still updated, so the version is bumped anyway. -/
theorem updateTVarPath_noop {s : Store} {id : String} {p : List Char}
    {v : Json} {segs : List Seg} {r : TVarRec}
    (hp : parsePath (formatSqlitePath p) = some segs)
    (hl : lookupTVar s id = some r)
    (hset : jsonSetWalk v r.value segs = none) :
    updateTVarPath s id p v =
      Except.ok (storeSet s id ⟨r.value, r.version + 1⟩) := by
  rw [updateTVarPath, hp, hl]
  simp [hset, casUpdate, hl]

/-! ## Claim C9 -/

/-- C9: `new_tvar(id, v)` creates the record with version 0 when no TVar
named `id` exists, and fails with `AlreadyExists`, leaving the store (and
hence the behaviour of the existing record) unchanged, when a TVar with
that id already exists. -/
theorem claim9_newTVar :
    (∀ (s : Store) (id : String) (v : Json), lookupTVar s id = none →
       newTVar s id v = Except.ok (s ++ [(id, ⟨v, 0⟩)]) ∧
       lookupTVar (s ++ [(id, ⟨v, 0⟩)]) id = some ⟨v, 0⟩) ∧
    (∀ (s : Store) (id : String) (v : Json) (r : TVarRec),
       lookupTVar s id = some r →
       newTVar s id v = Except.error (STMErr.alreadyExists id) ∧
       apiStep s (ApiCall.callNew id v) = s) := by
  constructor
  · intro s id v h
    refine ⟨by simp [newTVar, h], ?_⟩
    rw [lookupTVar_append_none h]
    simp [lookupTVar]
  · intro s id v r h
    exact ⟨by simp [newTVar, h], by simp [apiStep, newTVar, h]⟩

/-- Witness for C9 at concrete inputs: creating `"c"` in the empty store
yields the record at version 0; creating it again fails. -/
theorem claim9_newTVar_witness :
    newTVar [] "c" (Json.num 0) = Except.ok [("c", ⟨Json.num 0, 0⟩)] ∧
    newTVar [("c", ⟨Json.num 0, 0⟩)] "c" (Json.num 1) =
      Except.error (STMErr.alreadyExists "c") :=
  ⟨(claim9_newTVar.1 [] "c" (Json.num 0) rfl).1,
   (claim9_newTVar.2 [("c", ⟨Json.num 0, 0⟩)] "c" (Json.num 1)
      ⟨Json.num 0, 0⟩ rfl).1⟩

/-! ## Claim C7 -/

/-- C7: `read_tvar_path` fails with `NotFound` exactly when the TVar does
not exist; when it exists, the call fails with `PathAbsent` exactly when
the projection traverses a missing key or index or yields a JSON null,
and otherwise returns the projected sub-value. -/
theorem claim7_readTVarPath :
    ∀ (s : Store) (id : String) (p : List Char) (segs : List Seg),
      parsePath (formatSqlitePath p) = some segs →
      (readTVarPath s id p = Except.error (STMErr.notFound id) ↔
         lookupTVar s id = none) ∧
      (∀ r, lookupTVar s id = some r →
         (readTVarPath s id p = Except.error (STMErr.pathAbsent p id) ↔
            (jsonExtract r.value segs = none ∨
             jsonExtract r.value segs = some Json.null)) ∧
         (∀ v, jsonExtract r.value segs = some v → v.isNull = false →
            readTVarPath s id p = Except.ok v)) := by
  intro s id p segs hp
  cases hl : lookupTVar s id with
  | none =>
      refine ⟨by simp [readTVarPath, hp, hl], ?_⟩
      intro r hr
      cases hr
  | some r =>
      have hrp : readTVarPath s id p =
          (match sqlExtract r.value segs with
           | none => Except.error (STMErr.pathAbsent p id)
           | some v => Except.ok v) := by
        rw [readTVarPath, hp, hl]
      refine ⟨?_, ?_⟩
      · rw [hrp]
        cases hs : sqlExtract r.value segs <;> simp [hl]
      · intro r' hr'
        injection hr' with hr'
        subst hr'
        refine ⟨?_, ?_⟩
        · rw [hrp, ← sqlExtract_none_iff]
          cases hs : sqlExtract r.value segs <;> simp [hs]
        · intro v hv hnull
          rw [hrp, sqlExtract_some_of hv hnull]

/-- Witness for C7 at concrete inputs: projecting `a.b` out of
`{"a":{"b":3}}` returns 3, and reading a missing TVar fails with the
not-found error. -/
theorem claim7_readTVarPath_witness :
    readTVarPath [("t", ⟨Json.obj [("a", Json.obj [("b", Json.num 3)])], 0⟩)]
      "t" "a.b".toList = Except.ok (Json.num 3) ∧
    readTVarPath [("t", ⟨Json.obj [("a", Json.obj [("b", Json.num 3)])], 0⟩)]
      "u" "a.b".toList = Except.error (STMErr.notFound "u") :=
  ⟨(((claim7_readTVarPath
        [("t", ⟨Json.obj [("a", Json.obj [("b", Json.num 3)])], 0⟩)]
        "t" "a.b".toList [Seg.key "a", Seg.key "b"] rfl).2
      ⟨Json.obj [("a", Json.obj [("b", Json.num 3)])], 0⟩ rfl).2
      (Json.num 3) rfl rfl),
   ((claim7_readTVarPath
        [("t", ⟨Json.obj [("a", Json.obj [("b", Json.num 3)])], 0⟩)]
        "u" "a.b".toList [Seg.key "a", Seg.key "b"] rfl).1.mpr rfl)⟩

/-! ## Claim C2 -/

/-- C2 (amended): within a single transaction attempt, after
`write_tvar(id, v)` a subsequent `read_tvar(id)` returns `v`; and after
`update_tvar_path(id, p, v)` a subsequent `read_tvar_path(id, p)` returns
`v` provided the `json_set` edit applies to the document (in particular,
missing intermediate key segments are created, but a missing or
out-of-range index segment makes the edit a no-op) and `v` is not JSON
null (reading back a null signals `PathAbsent`). -/
theorem claim2_readYourWrites :
    (∀ (s s' : Store) (id : String) (v : Json),
       writeTVar s id v = Except.ok s' → readTVar s' id = Except.ok v) ∧
    (∀ (s : Store) (id : String) (p : List Char) (v : Json)
       (segs : List Seg) (r : TVarRec) (doc' : Json),
       parsePath (formatSqlitePath p) = some segs →
       lookupTVar s id = some r →
       jsonSetWalk v r.value segs = some doc' →
       v.isNull = false →
       ∃ s', updateTVarPath s id p v = Except.ok s' ∧
             readTVarPath s' id p = Except.ok v) := by
  constructor
  · intro s s' id v h
    cases hl : lookupTVar s id with
    | none => rw [writeTVar, hl] at h; cases h
    | some r =>
        rw [writeTVar_ok hl] at h
        injection h with h
        subst h
        rw [readTVar, lookupTVar_storeSet_self hl]
  · intro s id p v segs r doc' hp hl hset hnull
    refine ⟨storeSet s id ⟨doc', r.version + 1⟩, updateTVarPath_ok hp hl hset, ?_⟩
    simp only [readTVarPath, hp, lookupTVar_storeSet_self hl,
      sqlExtract_some_of (jsonSetWalk_extract hset) hnull]

/-- Witness for C2 at concrete inputs: write-then-read of a plain TVar,
and path-update-then-path-read of an existing key. -/
theorem claim2_readYourWrites_witness :
    readTVar [("t", ⟨Json.num 1, 1⟩)] "t" = Except.ok (Json.num 1) ∧
    (∃ s', updateTVarPath [("t", ⟨Json.obj [("name", Json.str "A")], 0⟩)]
             "t" "name".toList (Json.str "B") = Except.ok s' ∧
           readTVarPath s' "t" "name".toList = Except.ok (Json.str "B")) :=
  ⟨claim2_readYourWrites.1 [("t", ⟨Json.num 0, 0⟩)] _ "t" (Json.num 1) rfl,
   claim2_readYourWrites.2 _ "t" _ (Json.str "B") [Seg.key "name"]
     ⟨Json.obj [("name", Json.str "A")], 0⟩
     (Json.obj [("name", Json.str "B")]) rfl rfl rfl rfl⟩

/-- Counterexample to C2 as stated: on the document `{}`, updating the
path `a[1]` (whose intermediate segment `a` is absent and whose next
segment is an index) succeeds as a call, but `json_set` is a no-op, so
the subsequent path read does not return the written value — it fails
with `PathAbsent`. -/
theorem claim2_readYourWrites_cex :
    updateTVarPath [("t", ⟨Json.obj [], 0⟩)] "t" "a[1]".toList (Json.num 5) =
      Except.ok [("t", ⟨Json.obj [], 1⟩)] ∧
    readTVarPath [("t", ⟨Json.obj [], 1⟩)] "t" "a[1]".toList =
      Except.error (STMErr.pathAbsent "a[1]".toList "t") :=
  ⟨rfl, rfl⟩

/-! ## Claim C6 -/

/-- C6 (amended): `update_tvar_path` assigns the value at the terminal
segment whenever the `json_set` edit applies, creating an empty object at
every missing non-terminal **key** segment (so setting `a.b.c` on `{}`
nests objects and stores the value there, retrievable by projection);
when a missing or out-of-range **index** segment is traversed the edit is
a no-op and the document is left unchanged. -/
theorem claim6_jsonSetCreates :
    (∀ (doc doc' : Json) (segs : List Seg) (v : Json),
       jsonSetWalk v doc segs = some doc' → jsonExtract doc' segs = some v) ∧
    (∀ (ks : List String) (v : Json),
       jsonSetWalk v (Json.obj []) (ks.map Seg.key) = some (nestObj ks v) ∧
       jsonExtract (nestObj ks v) (ks.map Seg.key) = some v) ∧
    (∀ (s : Store) (id : String) (p : List Char) (v : Json)
       (segs : List Seg) (r : TVarRec) (doc' : Json),
       parsePath (formatSqlitePath p) = some segs →
       lookupTVar s id = some r →
       jsonSetWalk v r.value segs = some doc' →
       ∃ s', updateTVarPath s id p v = Except.ok s' ∧
             lookupTVar s' id = some ⟨doc', r.version + 1⟩) := by
  refine ⟨fun _ _ _ _ h => jsonSetWalk_extract h, ?_, ?_⟩
  · intro ks v
    have hcreate : ∀ ks : List String,
        jsonCreate v (ks.map Seg.key) = some (nestObj ks v) := by
      intro ks
      induction ks with
      | nil => simp [jsonCreate, nestObj]
      | cons k ks ih => simp [jsonCreate, nestObj, ih]
    refine ⟨?_, jsonCreate_extract (hcreate ks)⟩
    cases ks with
    | nil => simp [jsonSetWalk, nestObj]
    | cons k ks => simp [jsonSetWalk, assocFind, hcreate, nestObj]
  · intro s id p v segs r doc' hp hl hset
    exact ⟨storeSet s id ⟨doc', r.version + 1⟩, updateTVarPath_ok hp hl hset,
      lookupTVar_storeSet_self hl⟩

/-- Witness for C6 at concrete inputs: setting `a.b.c` on `{}` builds
`{"a":{"b":{"c":1}}}` and the value is retrievable at that path. -/
theorem claim6_jsonSetCreates_witness :
    jsonSetWalk (Json.num 1) (Json.obj [])
        (["a", "b", "c"].map Seg.key) =
      some (nestObj ["a", "b", "c"] (Json.num 1)) ∧
    (∃ s', updateTVarPath [("t", ⟨Json.obj [], 0⟩)] "t" "a.b.c".toList
             (Json.num 1) = Except.ok s' ∧
           lookupTVar s' "t" =
             some ⟨nestObj ["a", "b", "c"] (Json.num 1), 1⟩) :=
  ⟨(claim6_jsonSetCreates.2.1 ["a", "b", "c"] (Json.num 1)).1,
   claim6_jsonSetCreates.2.2 _ "t" _ (Json.num 1)
     [Seg.key "a", Seg.key "b", Seg.key "c"] ⟨Json.obj [], 0⟩
     (nestObj ["a", "b", "c"] (Json.num 1)) rfl rfl
     ((claim6_jsonSetCreates.2.1 ["a", "b", "c"] (Json.num 1)).1)⟩

/-! ## Execute and retry-loop lemmas -/

/-- A closure that throws after its operations succeed makes `execute`
roll back and rethrow the user error; a failing operation rethrows its
own error.  Either way `execute` does not commit. -/
theorem execute_userThrow {s : Store} {ops : List Op} {msg : String} :
    execute s ops (some msg) =
      (match runOps s ops with
       | Except.error e => Except.error e
       | Except.ok _ => Except.error (STMErr.user msg)) := by
  rw [execute]

/-- A committing `execute` is exactly a successful run of the operations
(with no final user throw). -/
theorem execute_ok_runOps {s s' : Store} {ops : List Op} {fin : Option String}
    (h : execute s ops fin = Except.ok s') : runOps s ops = Except.ok s' := by
  rw [execute] at h
  cases hro : runOps s ops with
  | error e => rw [hro] at h; cases h
  | ok s'' =>
      rw [hro] at h
      cases fin with
      | some msg => cases h
      | none => injection h with h; rw [h]

/-- When every attempt throws an error whose message equals the conflict
string, the retry loop ends in the max-retries error. -/
theorem atomicallyGo_const_conflict {e : STMErr} (he : e.message = conflictMsg) :
    ∀ (fuel attempts : Nat),
      (atomicallyGo (fun _ => AttemptResult.thrown e) fuel attempts).1 =
        Except.error STMErr.maxRetries := by
  intro fuel
  induction fuel with
  | zero => intro attempts; rfl
  | succ fuel ih =>
      intro attempts
      simp only [atomicallyGo, he]
      by_cases h1 : 1000 ≤ attempts + 1
      · simp [h1]
      · by_cases h2 : ((attempts + 1) % 10 == 0) = true
        · simp [h1, h2, ih]
        · simp [h1, h2, ih]

/-- An attempt that throws an error whose message is not the conflict
string makes the driver propagate that error at once. -/
theorem atomicallyGo_nonconflict {outcome : Nat → AttemptResult}
    {fuel attempts : Nat} {e : STMErr} (hf : fuel ≠ 0)
    (ho : outcome attempts = AttemptResult.thrown e)
    (he : (e.message == conflictMsg) = false) :
    atomicallyGo outcome fuel attempts = (Except.error e, []) := by
  cases fuel with
  | zero => exact absurd rfl hf
  | succ fuel => simp [atomicallyGo, ho, he]

/-- One unfolding step of the retry loop with symbolic fuel. -/
theorem atomicallyGo_succ (outcome : Nat → AttemptResult)
    (fuel attempts : Nat) :
    atomicallyGo outcome (fuel + 1) attempts =
      (match outcome attempts with
       | AttemptResult.ok v => (Except.ok v, [])
       | AttemptResult.thrown e =>
           if e.message == conflictMsg then
             if 1000 ≤ attempts + 1 then (Except.error STMErr.maxRetries, [])
             else
               if (attempts + 1) % 10 == 0 then
                 ((atomicallyGo outcome fuel (attempts + 1)).1,
                  min 100 (2 ^ ((attempts + 1) / 10)) ::
                    (atomicallyGo outcome fuel (attempts + 1)).2)
               else atomicallyGo outcome fuel (attempts + 1)
           else (Except.error e, [])) := rfl

/-! ## Claim C1 -/

/-- C1 (amended): for every store and straight-line closure that writes
and then throws a user error, `atomically` leaves no observable state
change — every TVar keeps its value and version.  The thrown error is
propagated verbatim provided its message is not exactly the conflict
string `"Concurrent modification detected"`; an error carrying exactly
that message is classified as a conflict and retried (surfacing as
max-retries instead). -/
theorem claim1_rollbackOnThrow :
    (∀ (s : Store) (ops : List Op) (msg : String),
       atomicallyState s ops (some msg) = s) ∧
    (∀ (s : Store) (ops : List Op) (msg : String) (s'' : Store),
       runOps s ops = Except.ok s'' → msg ≠ conflictMsg →
       atomicallyRun s ops (some msg) = Except.error (STMErr.user msg)) := by
  constructor
  · intro s ops msg
    rw [atomicallyState, executeState, execute_userThrow]
    cases runOps s ops <;> simp
  · intro s ops msg s'' hops hmsg
    have hex : execute s ops (some msg) = Except.error (STMErr.user msg) := by
      rw [execute_userThrow, hops]
    have hout : (fun _ : Nat => txOutcome s ops (some msg)) =
        fun _ : Nat => AttemptResult.thrown (STMErr.user msg) := by
      funext k
      rw [txOutcome, hex]
    rw [atomicallyRun, atomicallyOutcomes, hout,
      @atomicallyGo_nonconflict
        (fun _ : Nat => AttemptResult.thrown (STMErr.user msg)) 1000 0
        (STMErr.user msg) (by decide) rfl (beq_eq_false_iff_ne.mpr hmsg)]

/-- Witness for C1 at the concrete S4 scenario: `new_tvar("c", 0)`, the
closure writes 1 to `"c"` and throws `"x"`; the error propagates and a
subsequent read of `"c"` still sees value 0 at version 0. -/
theorem claim1_rollbackOnThrow_witness :
    atomicallyRun [("c", ⟨Json.num 0, 0⟩)] [Op.opWrite "c" (Json.num 1)]
        (some "x") = Except.error (STMErr.user "x") ∧
    atomicallyState [("c", ⟨Json.num 0, 0⟩)] [Op.opWrite "c" (Json.num 1)]
        (some "x") = [("c", ⟨Json.num 0, 0⟩)] ∧
    lookupTVar (atomicallyState [("c", ⟨Json.num 0, 0⟩)]
        [Op.opWrite "c" (Json.num 1)] (some "x")) "c" =
      some ⟨Json.num 0, 0⟩ :=
  ⟨claim1_rollbackOnThrow.2 _ _ "x" [("c", ⟨Json.num 1, 1⟩)] rfl (by decide),
   claim1_rollbackOnThrow.1 _ _ "x",
   by rw [claim1_rollbackOnThrow.1]; rfl⟩

/-- Counterexample to C1 as stated: if the user closure throws an error
whose message is exactly the conflict string, `atomically` does not
propagate that error — it silently retries 999 times and fails with the
max-retries error instead (the state is still unchanged). -/
theorem claim1_rollbackOnThrow_cex :
    atomicallyRun [("c", ⟨Json.num 0, 0⟩)] [Op.opWrite "c" (Json.num 1)]
        (some conflictMsg) = Except.error STMErr.maxRetries ∧
    atomicallyRun [("c", ⟨Json.num 0, 0⟩)] [Op.opWrite "c" (Json.num 1)]
        (some conflictMsg) ≠ Except.error (STMErr.user conflictMsg) := by
  have hout : (fun _ : Nat => txOutcome [("c", ⟨Json.num 0, 0⟩)]
      [Op.opWrite "c" (Json.num 1)] (some conflictMsg)) =
      fun _ : Nat => AttemptResult.thrown (STMErr.user conflictMsg) := rfl
  have h1 : atomicallyRun [("c", ⟨Json.num 0, 0⟩)] [Op.opWrite "c" (Json.num 1)]
      (some conflictMsg) = Except.error STMErr.maxRetries := by
    rw [atomicallyRun, atomicallyOutcomes, hout]
    exact @atomicallyGo_const_conflict (STMErr.user conflictMsg) rfl 1000 0
  exact ⟨h1, by rw [h1]; simp⟩

/-! ## Claim C4 -/

/-- The user operations of a closure never emit a `COMMIT` event. -/
theorem runTraceOps_no_commit :
    ∀ (ops : List Op) (s : Store),
      (runTraceOps s ops).countP Ev.isCommit = 0 := by
  intro ops
  induction ops with
  | nil => intro s; rfl
  | cons o rest ih =>
      intro s
      rw [runTraceOps]
      cases runOp s o with
      | error e => rfl
      | ok s' => simp [List.countP_cons, Ev.isCommit, ih]

/-- C4 (amended): in every `execute` trace the exclusive backend
transaction (`BEGIN IMMEDIATE`, the write lock) is the **first** event —
it is acquired before the user closure runs and held for the closure's
whole duration, not only across validation and apply; `COMMIT` is
executed exactly once, as the final event, exactly when the closure
returns normally (all operations succeed and there is no user throw),
and otherwise the final event is a `ROLLBACK`. -/
theorem claim4_lockSpan :
    ∀ (s : Store) (ops : List Op) (fin : Option String),
      (executeTrace s ops fin).head? = some Ev.evBegin ∧
      (executeTrace s ops fin).countP Ev.isCommit =
        (match runOps s ops, fin with
         | Except.ok _, none => 1
         | _, _ => 0) ∧
      (executeTrace s ops fin).getLast? =
        some (match runOps s ops, fin with
              | Except.ok _, none => Ev.evCommit
              | _, _ => Ev.evRollback) := by
  intro s ops fin
  have hfinal : (match execute s ops fin with
      | Except.ok _ => Ev.evCommit
      | Except.error _ => Ev.evRollback) =
      (match runOps s ops, fin with
       | Except.ok _, none => Ev.evCommit
       | _, _ => Ev.evRollback) := by
    rw [execute]
    cases hro : runOps s ops with
    | error e => rfl
    | ok s' => cases fin <;> rfl
  refine ⟨rfl, ?_, ?_⟩
  · rw [executeTrace, List.countP_cons, List.countP_append, hfinal,
      runTraceOps_no_commit]
    cases hro : runOps s ops with
    | error e => simp [Ev.isCommit]
    | ok s' => cases fin <;> simp [Ev.isCommit]
  · rw [executeTrace, ← List.cons_append, List.getLast?_concat, hfinal]

/-- Counterexample to C4 as stated: in a concrete committing transaction
the trace is `[BEGIN IMMEDIATE, user write, COMMIT]` — the lock
acquisition is the head of the trace and the user operation happens
after it, inside the locked region, refuting that the lock is held only
across validation and apply. -/
theorem claim4_lockSpan_cex :
    executeTrace [("c", ⟨Json.num 0, 0⟩)] [Op.opWrite "c" (Json.num 1)] none =
      [Ev.evBegin, Ev.evOp (Op.opWrite "c" (Json.num 1)), Ev.evCommit] ∧
    (executeTrace [("c", ⟨Json.num 0, 0⟩)] [Op.opWrite "c" (Json.num 1)]
        none).head? = some Ev.evBegin ∧
    Ev.evOp (Op.opWrite "c" (Json.num 1)) ∈
      executeTrace [("c", ⟨Json.num 0, 0⟩)] [Op.opWrite "c" (Json.num 1)] none :=
  ⟨rfl, rfl, List.mem_cons_of_mem _ (List.mem_cons_self _ _)⟩

/-! ## Claim C3 -/

/-- One successful operation raises the version of `id` by one exactly
when the operation writes `id`, and leaves it unchanged otherwise. -/
theorem runOp_version {s s' : Store} {o : Op} (h : runOp s o = Except.ok s') :
    ∀ {id : String} {r : TVarRec}, lookupTVar s id = some r →
      ∃ r' : TVarRec, lookupTVar s' id = some r' ∧
        r'.version = r.version + (if writesTo id o then 1 else 0) := by
  intro id r hl
  cases o with
  | opRead i =>
      rw [runOp] at h
      cases hr : readTVar s i with
      | error e => rw [hr] at h; cases h
      | ok v =>
          rw [hr] at h
          injection h with h
          subst h
          exact ⟨r, hl, by simp [writesTo]⟩
  | opReadPath i p =>
      rw [runOp] at h
      cases hr : readTVarPath s i p with
      | error e => rw [hr] at h; cases h
      | ok v =>
          rw [hr] at h
          injection h with h
          subst h
          exact ⟨r, hl, by simp [writesTo]⟩
  | opWrite i v =>
      rw [runOp] at h
      cases hli : lookupTVar s i with
      | none => rw [writeTVar, hli] at h; cases h
      | some ri =>
          rw [writeTVar_ok hli] at h
          injection h with h
          subst h
          by_cases hid : i = id
          · subst hid
            rw [hli] at hl
            injection hl with hl
            subst hl
            exact ⟨⟨v, ri.version + 1⟩, lookupTVar_storeSet_self hli,
              by simp [writesTo]⟩
          · refine ⟨r, ?_, by simp [writesTo, hid]⟩
            rw [lookupTVar_storeSet_ne (fun hji => hid hji.symm)]
            exact hl
  | opUpdatePath i p v =>
      rw [runOp] at h
      cases hp : parsePath (formatSqlitePath p) with
      | none => rw [updateTVarPath, hp] at h; cases h
      | some segs =>
          cases hli : lookupTVar s i with
          | none => rw [updateTVarPath, hp, hli] at h; cases h
          | some ri =>
              have hshape : ∃ doc', s' = storeSet s i ⟨doc', ri.version + 1⟩ := by
                cases hw : jsonSetWalk v ri.value segs with
                | none =>
                    rw [updateTVarPath_noop hp hli hw] at h
                    injection h with h
                    exact ⟨ri.value, h.symm⟩
                | some doc' =>
                    rw [updateTVarPath_ok hp hli hw] at h
                    injection h with h
                    exact ⟨doc', h.symm⟩
              obtain ⟨doc', hs'⟩ := hshape
              subst hs'
              by_cases hid : i = id
              · subst hid
                rw [hli] at hl
                injection hl with hl
                subst hl
                exact ⟨⟨doc', ri.version + 1⟩, lookupTVar_storeSet_self hli,
                  by simp [writesTo]⟩
              · refine ⟨r, ?_, by simp [writesTo, hid]⟩
                rw [lookupTVar_storeSet_ne (fun hji => hid hji.symm)]
                exact hl

/-- Across a successful straight-line run, the version of each id grows
by exactly the number of write operations targeting it. -/
theorem runOps_version {ops : List Op} :
    ∀ {s s' : Store}, runOps s ops = Except.ok s' →
      ∀ {id : String} {r : TVarRec}, lookupTVar s id = some r →
        ∃ r' : TVarRec, lookupTVar s' id = some r' ∧
          r'.version = r.version + writeCount ops id := by
  induction ops with
  | nil =>
      intro s s' h id r hl
      injection h with h
      subst h
      exact ⟨r, hl, by simp [writeCount]⟩
  | cons o rest ih =>
      intro s s' h id r hl
      rw [runOps] at h
      cases ho : runOp s o with
      | error e => rw [ho] at h; cases h
      | ok s1 =>
          rw [ho] at h
          obtain ⟨r1, hl1, hv1⟩ := runOp_version ho hl
          obtain ⟨r', hl', hv'⟩ := ih h hl1
          refine ⟨r', hl', ?_⟩
          rw [hv', hv1, writeCount, writeCount, List.countP_cons]
          by_cases hw : writesTo id o = true
          · simp only [hw, if_true]
            omega
          · simp only [hw, if_false]
            omega

/-- C3 (amended): a TVar starts at version 0 on creation; across any API
call (a `new_tvar` or an `atomically`, committed, aborted or rolled
back) the version of an existing TVar never decreases; and a committing
transaction increases the version of each TVar by exactly the number of
write calls (`write_tvar` / `update_tvar_path`) it performs on that id —
each write bumps the version by one, so a transaction with several
writes to the same id adds more than 1. -/
theorem claim3_versionMonotone :
    (∀ (s : Store) (id : String) (v : Json), lookupTVar s id = none →
       ∃ s', newTVar s id v = Except.ok s' ∧
         lookupTVar s' id = some ⟨v, 0⟩) ∧
    (∀ (s : Store) (c : ApiCall) (id : String) (r : TVarRec),
       lookupTVar s id = some r →
       ∃ r' : TVarRec, lookupTVar (apiStep s c) id = some r' ∧
         r.version ≤ r'.version) ∧
    (∀ (s s' : Store) (ops : List Op) (id : String) (r : TVarRec),
       execute s ops none = Except.ok s' → lookupTVar s id = some r →
       ∃ r' : TVarRec, lookupTVar s' id = some r' ∧
         r'.version = r.version + writeCount ops id) := by
  refine ⟨?_, ?_, ?_⟩
  · intro s id v h
    refine ⟨s ++ [(id, ⟨v, 0⟩)], by simp [newTVar, h], ?_⟩
    rw [lookupTVar_append_none h]
    simp [lookupTVar]
  · intro s c id r hl
    cases c with
    | callNew i v =>
        cases hni : lookupTVar s i with
        | none =>
            rw [apiStep]
            simp only [newTVar, hni]
            exact ⟨r, lookupTVar_append_some hl, Nat.le_refl _⟩
        | some ri =>
            rw [apiStep]
            simp only [newTVar, hni]
            exact ⟨r, hl, Nat.le_refl _⟩
    | callAtomically ops fin =>
        rw [apiStep, atomicallyState, executeState]
        cases hex : execute s ops fin with
        | error e => exact ⟨r, hl, Nat.le_refl _⟩
        | ok s' =>
            obtain ⟨r', hl', hv'⟩ := runOps_version (execute_ok_runOps hex) hl
            exact ⟨r', hl', by rw [hv']; exact Nat.le_add_right _ _⟩
  · intro s s' ops id r hex hl
    exact runOps_version (execute_ok_runOps hex) hl

/-- Witness for C3 at concrete inputs: creation at version 0;
monotonicity across a committing increment; and a single-write commit
raising the version by exactly its one write. -/
theorem claim3_versionMonotone_witness :
    (∃ s', newTVar [] "c" (Json.num 0) = Except.ok s' ∧
       lookupTVar s' "c" = some ⟨Json.num 0, 0⟩) ∧
    (∃ r' : TVarRec,
       lookupTVar (apiStep [("c", ⟨Json.num 0, 0⟩)]
         (ApiCall.callAtomically [Op.opWrite "c" (Json.num 1)] none)) "c" =
           some r' ∧ 0 ≤ r'.version) ∧
    (∃ r' : TVarRec, lookupTVar [("c", ⟨Json.num 1, 1⟩)] "c" = some r' ∧
       r'.version = 0 + writeCount [Op.opWrite "c" (Json.num 1)] "c") :=
  ⟨claim3_versionMonotone.1 [] "c" (Json.num 0) rfl,
   claim3_versionMonotone.2.1 [("c", ⟨Json.num 0, 0⟩)]
     (ApiCall.callAtomically [Op.opWrite "c" (Json.num 1)] none) "c"
     ⟨Json.num 0, 0⟩ rfl,
   claim3_versionMonotone.2.2 [("c", ⟨Json.num 0, 0⟩)]
     [("c", ⟨Json.num 1, 1⟩)] [Op.opWrite "c" (Json.num 1)] "c"
     ⟨Json.num 0, 0⟩ rfl rfl⟩

/-- Counterexample to C3 as stated: one committing transaction that
performs two `write_tvar` calls to the same id raises its version from 0
to 2, not by exactly 1. -/
theorem claim3_versionMonotone_cex :
    execute [("t", ⟨Json.num 0, 0⟩)]
        [Op.opWrite "t" (Json.num 100), Op.opWrite "t" (Json.num 200)] none =
      Except.ok [("t", ⟨Json.num 200, 2⟩)] ∧
    (⟨Json.num 200, 2⟩ : TVarRec).version ≠ 0 + 1 :=
  ⟨rfl, by decide⟩

/-! ## Claims C5 and C10: the retry loop -/

/-- Running the loop through `n` consecutive conflict-classified attempts
advances the counter by `n`, spends `n` units of fuel, and accumulates
exactly the prescribed back-off sleeps. -/
theorem atomicallyGo_conflicts {outcome : Nat → AttemptResult} :
    ∀ (n fuel attempts : Nat), fuel + attempts = 1000 → attempts + n < 1000 →
      (∀ k, k < n → ∃ e, outcome (attempts + k) = AttemptResult.thrown e ∧
         (e.message == conflictMsg) = true) →
      atomicallyGo outcome fuel attempts =
        ((atomicallyGo outcome (fuel - n) (attempts + n)).1,
         backoffSchedule attempts n ++
           (atomicallyGo outcome (fuel - n) (attempts + n)).2) := by
  intro n
  induction n with
  | zero =>
      intro fuel attempts hf hlt hconf
      simp [backoffSchedule]
  | succ n ih =>
      intro fuel attempts hf hlt hconf
      obtain ⟨e, he, hemsg⟩ := hconf 0 (Nat.succ_pos n)
      rw [Nat.add_zero] at he
      obtain ⟨f, rfl⟩ : ∃ f, fuel = f + 1 := ⟨fuel - 1, by omega⟩
      have ha : ¬ 1000 ≤ attempts + 1 := by omega
      have ihh := ih f (attempts + 1) (by omega) (by omega) (fun k hk => by
        have hc := hconf (k + 1) (by omega)
        rwa [show attempts + (k + 1) = attempts + 1 + k by omega] at hc)
      have hsub : f + 1 - (n + 1) = f - n := by omega
      have hadd : attempts + (n + 1) = attempts + 1 + n := by omega
      rw [backoffSchedule, hsub, hadd]
      simp only [atomicallyGo, he, hemsg, if_true, if_neg ha]
      rw [ihh]
      by_cases h10 : ((attempts + 1) % 10 == 0) = true
      · simp [h10]
      · simp [h10]

/-- C5: `atomically` retries exactly on attempts that fail with the
conflict error: every conflict increments the counter; once the counter
reaches `maxAttempts = 1000` the driver fails with the max-retries error;
before that it re-runs the closure (a fresh `Transaction` per attempt,
abstracted as the next entry of the outcome function), sleeping
`min 100 (2 ^ (counter / 10))` milliseconds on every 10th retry and
retrying immediately otherwise; a non-conflict outcome ends the loop at
once, returning the value or propagating the error. -/
theorem claim5_retryPolicy :
    (∀ outcome : Nat → AttemptResult,
       (∀ k, k < 1000 → ∃ e, outcome k = AttemptResult.thrown e ∧
          (e.message == conflictMsg) = true) →
       atomicallyOutcomes outcome =
         (Except.error STMErr.maxRetries, backoffSchedule 0 999)) ∧
    (∀ (outcome : Nat → AttemptResult) (n : Nat) (v : Json),
       n < 1000 →
       (∀ k, k < n → ∃ e, outcome k = AttemptResult.thrown e ∧
          (e.message == conflictMsg) = true) →
       outcome n = AttemptResult.ok v →
       atomicallyOutcomes outcome = (Except.ok v, backoffSchedule 0 n)) ∧
    (∀ (outcome : Nat → AttemptResult) (n : Nat) (e : STMErr),
       n < 1000 →
       (∀ k, k < n → ∃ e', outcome k = AttemptResult.thrown e' ∧
          (e'.message == conflictMsg) = true) →
       outcome n = AttemptResult.thrown e →
       (e.message == conflictMsg) = false →
       atomicallyOutcomes outcome = (Except.error e, backoffSchedule 0 n)) := by
  refine ⟨?_, ?_, ?_⟩
  · intro outcome hconf
    obtain ⟨e, he, hemsg⟩ := hconf 999 (by omega)
    have hend : atomicallyGo outcome 1 999 =
        (Except.error STMErr.maxRetries, []) := by
      have h1 : (1 : Nat) = 0 + 1 := rfl
      rw [h1]
      simp [atomicallyGo, he, hemsg]
    rw [atomicallyOutcomes,
      atomicallyGo_conflicts 999 1000 0 rfl (by omega)
        (fun k hk => by rw [Nat.zero_add]; exact hconf k (by omega))]
    simp [hend]
  · intro outcome n v hn hconf hok
    have hend : atomicallyGo outcome (1000 - n) n = (Except.ok v, []) := by
      obtain ⟨f, hf⟩ : ∃ f, 1000 - n = f + 1 := ⟨999 - n, by omega⟩
      rw [hf]
      simp [atomicallyGo, hok]
    rw [atomicallyOutcomes,
      atomicallyGo_conflicts n 1000 0 rfl (by omega)
        (fun k hk => by rw [Nat.zero_add]; exact hconf k hk)]
    simp [hend]
  · intro outcome n e hn hconf hth hmsg
    have hend : atomicallyGo outcome (1000 - n) n = (Except.error e, []) := by
      obtain ⟨f, hf⟩ : ∃ f, 1000 - n = f + 1 := ⟨999 - n, by omega⟩
      rw [hf]
      simp [atomicallyGo, hth, hmsg]
    rw [atomicallyOutcomes,
      atomicallyGo_conflicts n 1000 0 rfl (by omega)
        (fun k hk => by rw [Nat.zero_add]; exact hconf k hk)]
    simp [hend]

/-- Witness for C5 at a concrete outcome stream: 12 conflicts followed by
success return the value after one back-off sleep of
`min 100 (2 ^ (10 / 10)) = 2` milliseconds (at the 10th retry). -/
theorem claim5_retryPolicy_witness :
    atomicallyOutcomes (fun k => if k < 12
        then AttemptResult.thrown STMErr.conflict
        else AttemptResult.ok (Json.num 7)) =
      (Except.ok (Json.num 7), backoffSchedule 0 12) ∧
    backoffSchedule 0 12 = [2] :=
  ⟨claim5_retryPolicy.2.1 _ 12 (Json.num 7) (by omega)
     (fun k hk => ⟨STMErr.conflict, by simp [hk], rfl⟩) (by simp),
   rfl⟩

/-- C10: the driver classifies an attempt as a conflict solely by the
thrown error's message being exactly the conflict string: any error whose
message equals it — whoever threw it, including the user closure — is
rolled back and retried, while every error with a different message
(including a backend failure to acquire the write lock) propagates to the
caller immediately, with no retry. -/
theorem claim10_conflictByMessage :
    (∀ (outcome : Nat → AttemptResult) (e : STMErr) (v : Json),
       outcome 0 = AttemptResult.thrown e →
       (e.message == conflictMsg) = true →
       outcome 1 = AttemptResult.ok v →
       atomicallyOutcomes outcome = (Except.ok v, [])) ∧
    (∀ (outcome : Nat → AttemptResult) (e : STMErr),
       outcome 0 = AttemptResult.thrown e →
       (e.message == conflictMsg) = false →
       atomicallyOutcomes outcome = (Except.error e, [])) := by
  constructor
  · intro outcome e v h0 hm h1
    have e1 : atomicallyGo outcome 999 1 = (Except.ok v, []) := by
      have h999 : (999 : Nat) = 998 + 1 := rfl
      rw [h999, atomicallyGo_succ, h1]
    rw [atomicallyOutcomes]
    have h1000 : (1000 : Nat) = 999 + 1 := rfl
    rw [h1000, atomicallyGo_succ, h0]
    simp only [hm]
    norm_num [e1]
  · intro outcome e h0 hm
    rw [atomicallyOutcomes]
    exact atomicallyGo_nonconflict (by decide) h0 hm

/-- Witness for C10 at concrete outcome streams: an error thrown by the
user closure with exactly the conflict message is retried (and the next
attempt's value returned); a backend lock-acquisition failure, whose
message differs, propagates immediately. -/
theorem claim10_conflictByMessage_witness :
    atomicallyOutcomes (fun k => if k = 0
        then AttemptResult.thrown (STMErr.user conflictMsg)
        else AttemptResult.ok (Json.num 3)) = (Except.ok (Json.num 3), []) ∧
    atomicallyOutcomes (fun _ => AttemptResult.thrown STMErr.busy) =
      (Except.error STMErr.busy, []) :=
  ⟨claim10_conflictByMessage.1 _ (STMErr.user conflictMsg) (Json.num 3)
     rfl rfl rfl,
   claim10_conflictByMessage.2 _ STMErr.busy rfl rfl⟩

/-- Counterexample to C6 as stated: a missing non-terminal **index**
segment does not get an empty object created — the whole edit is a no-op,
the document stays `{}` (while the version is still bumped), and the
value is not present at the path afterwards. -/
theorem claim6_jsonSetCreates_cex :
    jsonSetWalk (Json.num 9) (Json.obj [])
      [Seg.key "a", Seg.idx 1, Seg.key "b"] = none ∧
    updateTVarPath [("t", ⟨Json.obj [], 0⟩)] "t" "a[1].b".toList (Json.num 9) =
      Except.ok [("t", ⟨Json.obj [], 1⟩)] ∧
    readTVarPath [("t", ⟨Json.obj [], 1⟩)] "t" "a[1].b".toList =
      Except.error (STMErr.pathAbsent "a[1].b".toList "t") :=
  ⟨rfl, rfl, rfl⟩

/-! ## Claim C8: path normalization

The two regex replacements are modelled segment-wise (`splitOnChar`,
`segOutDot`, `segOutBracket`).  The lemmas below establish that the
second replacement is the identity and that the first is idempotent, and
then settle the normalization claim. -/

theorem splitOnChar_cons_self (ch : Char) (rest : List Char) :
    splitOnChar ch (ch :: rest) = [] :: splitOnChar ch rest := by
  simp [splitOnChar]

theorem splitOnChar_cons_ne {ch c : Char} (hc : c ≠ ch) {rest s0 : List Char}
    {ss : List (List Char)} (h : splitOnChar ch rest = s0 :: ss) :
    splitOnChar ch (c :: rest) = (c :: s0) :: ss := by
  simp [splitOnChar, hc, h]

theorem splitOnChar_ne_nil (ch : Char) :
    ∀ l : List Char, splitOnChar ch l ≠ [] := by
  intro l
  induction l with
  | nil => simp [splitOnChar]
  | cons c rest ih =>
      by_cases hc : c = ch
      · subst hc
        rw [splitOnChar_cons_self]
        simp
      · obtain ⟨s0, ss, h⟩ := List.exists_cons_of_ne_nil ih
        rw [splitOnChar_cons_ne hc h]
        simp

theorem splitOnChar_chFree {ch : Char} :
    ∀ l : List Char, ∀ s ∈ splitOnChar ch l, ∀ c ∈ s, c ≠ ch := by
  intro l
  induction l with
  | nil =>
      intro s hs c hcs
      simp [splitOnChar] at hs
      subst hs
      simp at hcs
  | cons a rest ih =>
      intro s hs c hcs
      by_cases ha : a = ch
      · subst ha
        rw [splitOnChar_cons_self] at hs
        rcases List.mem_cons.mp hs with h | h
        · subst h; simp at hcs
        · exact ih s h c hcs
      · obtain ⟨s0, ss, h⟩ :=
          List.exists_cons_of_ne_nil (splitOnChar_ne_nil ch rest)
        rw [splitOnChar_cons_ne ha h] at hs
        rcases List.mem_cons.mp hs with hh | hh
        · subst hh
          rcases List.mem_cons.mp hcs with hc | hc
          · subst hc; exact ha
          · exact ih s0 (by rw [h]; exact List.mem_cons_self _ _) c hc
        · exact ih s (by rw [h]; exact List.mem_cons_of_mem _ hh) c hcs

theorem joinChar_split (ch : Char) :
    ∀ l : List Char, joinChar ch (splitOnChar ch l) = l := by
  intro l
  induction l with
  | nil => rfl
  | cons c rest ih =>
      obtain ⟨s0, ss, h⟩ :=
        List.exists_cons_of_ne_nil (splitOnChar_ne_nil ch rest)
      by_cases hc : c = ch
      · subst hc
        rw [splitOnChar_cons_self, h]
        rw [h] at ih
        simp only [joinChar, List.map_cons, List.flatten_cons,
          List.nil_append, List.cons_append] at ih ⊢
        rw [ih]
      · rw [splitOnChar_cons_ne hc h]
        rw [h] at ih
        simp only [joinChar, List.cons_append] at ih ⊢
        rw [ih]

theorem chFree_split {ch : Char} :
    ∀ {a : List Char}, (∀ c ∈ a, c ≠ ch) → splitOnChar ch a = [a] := by
  intro a
  induction a with
  | nil => intro _; rfl
  | cons c a ih =>
      intro h
      exact splitOnChar_cons_ne (h c (List.mem_cons_self c a))
        (ih (fun x hx => h x (List.mem_cons_of_mem c hx)))

theorem split_append_chFree {ch : Char} :
    ∀ {a : List Char}, (∀ c ∈ a, c ≠ ch) →
      ∀ {y s0 : List Char} {ss : List (List Char)},
        splitOnChar ch y = s0 :: ss →
        splitOnChar ch (a ++ y) = (a ++ s0) :: ss := by
  intro a
  induction a with
  | nil => intro _ y s0 ss h; simpa using h
  | cons c a ih =>
      intro h y s0 ss hy
      have step := ih (fun x hx => h x (List.mem_cons_of_mem c hx)) hy
      rw [List.cons_append, splitOnChar_cons_ne (h c (List.mem_cons_self c a)) step,
        List.cons_append]

theorem segOutBracket_eq (s : List Char) : segOutBracket s = '[' :: s := by
  rw [segOutBracket]
  by_cases h : (!(s.takeWhile Char.isDigit).isEmpty &&
      ((s.dropWhile Char.isDigit).head? == some ']')) = true
  · simp only [h, if_true]
    rw [List.takeWhile_append_dropWhile]
  · simp only [Bool.not_eq_true] at h
    simp [h]

theorem rewriteBrackets_id : ∀ l : List Char, rewriteBrackets l = l := by
  intro l
  obtain ⟨s0, ss, h⟩ := List.exists_cons_of_ne_nil (splitOnChar_ne_nil '[' l)
  rw [rewriteBrackets, h]
  have hmap : segOutBracket = fun t : List Char => '[' :: t :=
    funext segOutBracket_eq
  rw [hmap]
  have hj := joinChar_split '[' l
  rw [h] at hj
  simpa [joinChar] using hj

theorem segOutDot_true {s : List Char} (h : isDigitSeg s = true) :
    segOutDot s = '[' :: (s ++ [']']) := by
  simp [segOutDot, h]

theorem segOutDot_false {s : List Char} (h : isDigitSeg s = false) :
    segOutDot s = '.' :: s := by
  simp [segOutDot, h]

theorem isDigitSeg_bracket (x : List Char) : isDigitSeg ('[' :: x) = false := by
  simp [isDigitSeg, List.all_cons, show Char.isDigit '[' = false from rfl]

theorem isDigitSeg_append_false {s t : List Char} (hs : isDigitSeg s = false)
    (hne : s ≠ []) : isDigitSeg (s ++ t) = false := by
  have hie : s.isEmpty = false := by
    cases s with
    | nil => exact absurd rfl hne
    | cons c s => rfl
  simp only [isDigitSeg, hie, Bool.not_false, Bool.true_and] at hs
  simp [isDigitSeg, List.all_append, hs]

theorem digitSeg_chFree {s : List Char} (h : isDigitSeg s = true) :
    ∀ c ∈ s, c ≠ '.' := by
  intro c hc heq
  have hall : s.all Char.isDigit = true := by
    simp only [isDigitSeg, Bool.and_eq_true] at h
    exact h.2
  have := List.all_eq_true.mp hall c hc
  rw [heq] at this
  exact absurd this (by decide)

/-- The first segment of the split of the rewritten tail is never a bare
digit run: it is empty or starts with a bracket or retains a non-digit. -/
theorem rewriteDots_head_aux :
    ∀ (ss : List (List Char)),
      (∀ s ∈ ss, ∀ c ∈ s, c ≠ '.') →
      ∀ {s0 : List Char} {ss0 : List (List Char)},
        splitOnChar '.' ((ss.map segOutDot).flatten) = s0 :: ss0 →
        isDigitSeg s0 = false := by
  intro ss
  induction ss with
  | nil =>
      intro _ s0 ss0 h
      simp only [List.map_nil, List.flatten_nil, splitOnChar] at h
      injection h with h1 h2
      rw [← h1]
      rfl
  | cons s rest ih =>
      intro hfree s0 ss0 h
      have hsfree : ∀ c ∈ s, c ≠ '.' := hfree s (List.mem_cons_self _ _)
      have hrest : ∀ u ∈ rest, ∀ c ∈ u, c ≠ '.' :=
        fun u hu => hfree u (List.mem_cons_of_mem s hu)
      cases hd : isDigitSeg s with
      | true =>
          rw [List.map_cons, List.flatten_cons, segOutDot_true hd] at h
          have hpfree : ∀ c ∈ '[' :: (s ++ [']']), c ≠ '.' := by
            intro c hc
            rcases List.mem_cons.mp hc with rfl | hc
            · decide
            · rcases List.mem_append.mp hc with hc | hc
              · exact hsfree c hc
              · simp at hc; subst hc; decide
          obtain ⟨h0, t0, hsp⟩ := List.exists_cons_of_ne_nil
            (splitOnChar_ne_nil '.' ((rest.map segOutDot).flatten))
          rw [split_append_chFree hpfree hsp] at h
          injection h with h1 h2
          rw [← h1, List.cons_append]
          exact isDigitSeg_bracket _
      | false =>
          rw [List.map_cons, List.flatten_cons, segOutDot_false hd,
            List.cons_append, splitOnChar_cons_self] at h
          injection h with h1 h2
          rw [← h1]
          rfl

/-- Every later segment of the split of a rewritten string fails the
digit test, so a second pass changes nothing. -/
theorem rewriteDots_tail_aux :
    ∀ (ss : List (List Char)) (s₀ : List Char),
      (∀ c ∈ s₀, c ≠ '.') →
      (∀ s ∈ ss, ∀ c ∈ s, c ≠ '.') →
      ∀ t ∈ (splitOnChar '.' (s₀ ++ (ss.map segOutDot).flatten)).tail,
        isDigitSeg t = false := by
  intro ss
  induction ss with
  | nil =>
      intro s₀ h₀ _ t ht
      simp only [List.map_nil, List.flatten_nil, List.append_nil] at ht
      rw [chFree_split h₀] at ht
      simp at ht
  | cons s rest ih =>
      intro s₀ h₀ hfree t ht
      have hsfree : ∀ c ∈ s, c ≠ '.' := hfree s (List.mem_cons_self _ _)
      have hrest : ∀ u ∈ rest, ∀ c ∈ u, c ≠ '.' :=
        fun u hu => hfree u (List.mem_cons_of_mem s hu)
      cases hd : isDigitSeg s with
      | true =>
          rw [List.map_cons, List.flatten_cons, segOutDot_true hd,
            ← List.append_assoc] at ht
          refine ih (s₀ ++ ('[' :: (s ++ [']']))) ?_ hrest t ht
          intro c hc
          rcases List.mem_append.mp hc with hc | hc
          · exact h₀ c hc
          · rcases List.mem_cons.mp hc with rfl | hc
            · decide
            · rcases List.mem_append.mp hc with hc | hc
              · exact hsfree c hc
              · simp at hc; subst hc; decide
      | false =>
          rw [List.map_cons, List.flatten_cons, segOutDot_false hd,
            List.cons_append] at ht
          have hy := splitOnChar_cons_self '.'
            (s ++ (rest.map segOutDot).flatten)
          rw [split_append_chFree h₀ hy, List.append_nil] at ht
          simp only [List.tail_cons] at ht
          obtain ⟨h0, t0, hsp⟩ := List.exists_cons_of_ne_nil
            (splitOnChar_ne_nil '.' ((rest.map segOutDot).flatten))
          rw [split_append_chFree hsfree hsp] at ht
          rcases List.mem_cons.mp ht with rfl | hmem
          · by_cases hs : s = []
            · subst hs
              simpa using rewriteDots_head_aux rest hrest hsp
            · exact isDigitSeg_append_false hd hs
          · refine ih s hsfree hrest t ?_
            rw [split_append_chFree hsfree hsp]
            simpa using hmem

/-- Unfolding of the first replacement through a computed split. -/
theorem rewriteDots_eq {l s0 : List Char} {ss : List (List Char)}
    (h : splitOnChar '.' l = s0 :: ss) :
    rewriteDots l = s0 ++ (ss.map segOutDot).flatten := by
  rw [rewriteDots, h]

/-- The dot-rewriting replacement is idempotent. -/
theorem rewriteDots_idem : ∀ l : List Char,
    rewriteDots (rewriteDots l) = rewriteDots l := by
  intro l
  obtain ⟨s0, ss, h⟩ := List.exists_cons_of_ne_nil (splitOnChar_ne_nil '.' l)
  rw [rewriteDots_eq h]
  obtain ⟨h0, t0, h2⟩ := List.exists_cons_of_ne_nil
    (splitOnChar_ne_nil '.' (s0 ++ (ss.map segOutDot).flatten))
  rw [rewriteDots_eq h2]
  have htail := rewriteDots_tail_aux ss s0
    (splitOnChar_chFree l s0 (by rw [h]; exact List.mem_cons_self _ _))
    (fun s hs => splitOnChar_chFree l s (by rw [h]; exact List.mem_cons_of_mem _ hs))
  have hmap : t0.map segOutDot = t0.map (fun t => '.' :: t) := by
    apply List.map_congr_left
    intro t ht
    refine segOutDot_false (htail t ?_)
    rw [h2]
    simpa using ht
  rw [hmap]
  have hj := joinChar_split '.' (s0 ++ (ss.map segOutDot).flatten)
  rw [h2] at hj
  simpa [joinChar] using hj

/-- The replacement never shortens the string. -/
theorem rewriteDots_length : ∀ l : List Char,
    l.length ≤ (rewriteDots l).length := by
  intro l
  obtain ⟨s0, ss, h⟩ := List.exists_cons_of_ne_nil (splitOnChar_ne_nil '.' l)
  rw [rewriteDots_eq h]
  have hj := joinChar_split '.' l
  rw [h] at hj
  have hper : ∀ ss : List (List Char),
      ((ss.map (fun t => '.' :: t)).flatten).length ≤
        ((ss.map segOutDot).flatten).length := by
    intro ss
    induction ss with
    | nil => simp
    | cons s rest ihl =>
        simp only [List.map_cons, List.flatten_cons, List.length_append]
        have hseg : ('.' :: s).length ≤ (segOutDot s).length := by
          cases hd : isDigitSeg s with
          | true =>
              rw [segOutDot_true hd]
              simp [List.length_append]
          | false =>
              rw [segOutDot_false hd]
        omega
  have hlen := hper ss
  conv_lhs => rw [← hj]
  simp only [joinChar, List.length_append]
  omega

/-- Rewriting preserves a leading dollar sign. -/
theorem rewriteDots_head (y : List Char) :
    ∃ z, rewriteDots ('$' :: y) = '$' :: z := by
  obtain ⟨s0, ss, h⟩ := List.exists_cons_of_ne_nil (splitOnChar_ne_nil '.' y)
  have hc : splitOnChar '.' ('$' :: y) = ('$' :: s0) :: ss :=
    splitOnChar_cons_ne (by decide) h
  rw [rewriteDots_eq hc]
  exact ⟨s0 ++ (ss.map segOutDot).flatten, by rw [List.cons_append]⟩

/-- `formatSqlitePath` in the general (non-root, non-bracket) branch. -/
theorem formatSqlitePath_branch3 {p : List Char}
    (h1 : (p == ['$'] || p == []) = false)
    (h2 : ((p.head? == some '[') && (p.getLast? == some ']')) = false) :
    formatSqlitePath p =
      rewriteDots (if p.head? == some '$' then p else '$' :: '.' :: p) := by
  rw [formatSqlitePath, if_neg (by rw [h1]; simp),
    if_neg (by rw [h2]; simp), rewriteBrackets_id]

/-- C8 (amended): path normalization is idempotent for every path that
does not both start with `[` and end with `]` (such paths skip the digit
rewriting on the first pass, and a second pass can still rewrite them);
equivalent input forms normalize identically — `a.b` and `$.a.b` produce
the same canonical path, as do `a.2.b` and `a[2].b` — and the canonical
form always begins with `$`. -/
theorem claim8_pathNormalization :
    (∀ p : List Char,
       ((p.head? == some '[') && (p.getLast? == some ']')) = false →
       formatSqlitePath (formatSqlitePath p) = formatSqlitePath p) ∧
    formatSqlitePath "a.b".toList = formatSqlitePath "$.a.b".toList ∧
    formatSqlitePath "a.2.b".toList = formatSqlitePath "a[2].b".toList ∧
    (∀ p : List Char, (formatSqlitePath p).head? = some '$') := by
  refine ⟨?_, rfl, rfl, ?_⟩
  · intro p hbr
    by_cases h1 : (p == ['$'] || p == []) = true
    · have hp : formatSqlitePath p = ['$'] := by
        rw [formatSqlitePath, if_pos h1]
      rw [hp]
      rfl
    · have h1' : (p == ['$'] || p == []) = false := by
        revert h1
        cases p == ['$'] || p == [] <;> simp
      rw [formatSqlitePath_branch3 h1' hbr]
      have hy : ∃ y, (if p.head? == some '$' then p else '$' :: '.' :: p) =
          '$' :: y ∧ y ≠ [] := by
        by_cases hh : (p.head? == some '$') = true
        · rw [if_pos hh]
          have hph : p.head? = some '$' := by
            have := beq_iff_eq.mp hh
            exact this
          cases p with
          | nil => cases hph
          | cons c t =>
              injection hph with hph
              subst hph
              refine ⟨t, rfl, ?_⟩
              intro ht
              subst ht
              simp at h1'
        · rw [if_neg hh]
          exact ⟨'.' :: p, rfl, by simp⟩
      obtain ⟨y, hspy, hyne⟩ := hy
      rw [hspy]
      obtain ⟨z, hz⟩ := rewriteDots_head y
      have hlen2 : 2 ≤ (rewriteDots ('$' :: y)).length := by
        have hmono := rewriteDots_length ('$' :: y)
        have hylen : 1 ≤ y.length := List.length_pos.mpr hyne
        simp only [List.length_cons] at hmono
        omega
      have hzne : z ≠ [] := by
        intro hz0
        rw [hz0] at hz
        rw [hz] at hlen2
        simp at hlen2
      rw [hz]
      have hb1 : (('$' :: z) == ['$'] || ('$' :: z) == []) = false := by
        simp [hzne]
      have hb2 : ((('$' :: z).head? == some '[') &&
          (('$' :: z).getLast? == some ']')) = false := by
        simp [show (('$' :: z).head? == some '[') = false from rfl]
      rw [formatSqlitePath_branch3 hb1 hb2,
        if_pos (show (('$' :: z).head? == some '$') = true from rfl),
        ← hz, rewriteDots_idem]
  · intro p
    by_cases h1 : (p == ['$'] || p == []) = true
    · rw [formatSqlitePath, if_pos h1]
      rfl
    · have h1' : (p == ['$'] || p == []) = false := by
        revert h1
        cases p == ['$'] || p == [] <;> simp
      by_cases h2 : ((p.head? == some '[') && (p.getLast? == some ']')) = true
      · rw [formatSqlitePath, if_neg (by rw [h1']; simp), if_pos h2]
        rfl
      · have h2' : ((p.head? == some '[') && (p.getLast? == some ']')) = false := by
          revert h2
          cases (p.head? == some '[') && (p.getLast? == some ']') <;> simp
        rw [formatSqlitePath_branch3 h1' h2']
        by_cases hh : (p.head? == some '$') = true
        · rw [if_pos hh]
          have hph : p.head? = some '$' := beq_iff_eq.mp hh
          cases p with
          | nil => cases hph
          | cons c t =>
              injection hph with hph
              subst hph
              obtain ⟨z, hz⟩ := rewriteDots_head t
              rw [hz]
              rfl
        · rw [if_neg hh]
          obtain ⟨z, hz⟩ := rewriteDots_head ('.' :: p)
          rw [hz]
          rfl

/-- Witness for C8 at a concrete path: `a.2.b` (whose first character is
not `[`) normalizes idempotently. -/
theorem claim8_pathNormalization_witness :
    formatSqlitePath (formatSqlitePath "a.2.b".toList) =
      formatSqlitePath "a.2.b".toList :=
  claim8_pathNormalization.1 "a.2.b".toList rfl

/-- Counterexample to C8 as stated: the path `[0].1.a[2]` (which starts
with `[` and ends with `]`, so the first pass only prepends `$`) is not
normalized idempotently — the second pass additionally rewrites the
inner `.1` into `[1]`. -/
theorem claim8_pathNormalization_cex :
    formatSqlitePath "[0].1.a[2]".toList = "$[0].1.a[2]".toList ∧
    formatSqlitePath (formatSqlitePath "[0].1.a[2]".toList) =
      "$[0][1].a[2]".toList ∧
    formatSqlitePath (formatSqlitePath "[0].1.a[2]".toList) ≠
      formatSqlitePath "[0].1.a[2]".toList := by
  refine ⟨rfl, rfl, ?_⟩
  decide

end NodeSTM
